import Mathlib

/-!
Verification of the RAG pipeline (rag_api.py, vector_builder.py).

Text is modelled as lists of characters, Python dicts as association
lists, and the fallible embedding collaborator as a function into
`Except String`.  The document chunker invoked at
vector_builder.py:55-59/90 lives in an external library, so it is
modelled from the spec (section 4.1); everything else is translated
directly from the two source files.
-/

namespace Rag

/-- A fragment of document text, modelled as a list of characters. -/
abbrev Frag := List Char

/-- Modelled from the spec: one level of the chunker's separator
splitting (the chunker implementation is not part of the repository
sources).  Splits a text at every occurrence of the separator
character, dropping the separators. -/
def splitOnChar (s : Char) : List Char → List (List Char)
  | [] => [[]]
  | c :: cs =>
    if c = s then [] :: splitOnChar s cs
    else
      match splitOnChar s cs with
      | [] => [[c]]
      | p :: ps => (c :: p) :: ps

/-- Modelled from the spec: hierarchical recursive splitting.  A text
within the size bound is kept whole; otherwise it is split on the
coarsest separator that occurs in it and the pieces are split further
with the finer separators.  A piece in which no separator occurs is
emitted as-is even when it exceeds the bound. -/
def recSplit (maxSize : Nat) : List Char → Frag → List Frag
  | [] => fun text => [text]
  | s :: rest =>
    fun text =>
      if text.length ≤ maxSize then [text]
      else if s ∈ text then
        ((splitOnChar s text).filter (fun q => q ≠ [])).flatMap (recSplit maxSize rest)
      else recSplit maxSize rest text

/-- The last `n` characters of a list (Python `text[-n:]`). -/
def takeRightL (n : Nat) (l : List α) : List α := l.drop (l.length - n)

/-- Modelled from the spec: greedy merging of minimal pieces up to
`maxSize`, seeding each fragment after a flush with the `overlap`
trailing characters of the previous accepted fragment whenever that
seed still fits; an oversized atomic piece is emitted as-is. -/
def mergeGo (maxSize overlap : Nat) : Frag → List Frag → List Frag
  | cur, [] => if cur = [] then [] else [cur]
  | cur, p :: ps =>
    if maxSize < p.length then
      (if cur = [] then [] else [cur]) ++ p :: mergeGo maxSize overlap [] ps
    else if cur = [] then
      mergeGo maxSize overlap p ps
    else if cur.length + p.length ≤ maxSize then
      mergeGo maxSize overlap (cur ++ p) ps
    else
      cur :: mergeGo maxSize overlap
        (if (takeRightL overlap cur).length + p.length ≤ maxSize
          then takeRightL overlap cur ++ p else p) ps

/-- Modelled from the spec: the chunker contract
`split(document_text, max_size, overlap)`.  Empty or whitespace-only
input yields no fragments. -/
def splitText (seps : List Char) (maxSize overlap : Nat) (text : Frag) : List Frag :=
  if text.all (fun c => c.isWhitespace) then []
  else mergeGo maxSize overlap [] (recSplit maxSize seps text)

/-! Data model of vector_builder.py. -/

/-- A Python metadata value as stored by vector_builder.py: either the
integer row index or a stringified column value. -/
inductive MetaValue where
  | intVal (n : Nat)
  | strVal (s : String)
deriving DecidableEq

/-- Whether a metadata value is a string. -/
def isStringValue : MetaValue → Bool
  | .strVal _ => true
  | .intVal _ => false

/-- First-match lookup in an association list (Python dict access). -/
def lookupKey (k : String) : List (String × β) → Option β
  | [] => none
  | (k', v) :: rest => if k' = k then some v else lookupKey k rest

/-- The value of a metadata column in a row: `none` models an absent
column or a NaN cell, `some v` the stringified cell value
(vector_builder.py line 77-78). -/
def colValue (cols : List (String × Option String)) (c : String) : Option String :=
  match lookupKey c cols with
  | none => none
  | some v => v

/-- The metadata dict built for one row (vector_builder.py lines
73-78): `row_id` mapped to the integer row index, then one string
entry per present, non-NaN metadata column. -/
def buildMetadata (i : Nat) (metaCols : List String)
    (cols : List (String × Option String)) : List (String × MetaValue) :=
  ("row_id", MetaValue.intVal i) ::
    metaCols.filterMap (fun c => (colValue cols c).map (fun v => (c, MetaValue.strVal v)))

/-- A langchain Document: page content plus metadata. -/
structure Doc where
  content : Frag
  metadata : List (String × MetaValue)
deriving DecidableEq

/-- One CSV row: the content cell (`none` models NaN) and the other
columns. -/
structure RowData where
  content : Option Frag
  cols : List (String × Option String)

/-- The skip test of vector_builder.py line 68: content missing or
stripping to the empty string. -/
def skipRow (r : RowData) : Bool :=
  match r.content with
  | none => true
  | some t => t.all (fun c => c.isWhitespace)

/-- The row-processing loop of vector_builder.py lines 66-84, carrying
the running row index: returns the accepted documents in order and the
number of skipped rows. -/
def processRowsFrom (metaCols : List String) : Nat → List RowData → List Doc × Nat
  | _, [] => ([], 0)
  | i, r :: rs =>
    let rest := processRowsFrom metaCols (i + 1) rs
    if skipRow r then (rest.1, rest.2 + 1)
    else (⟨r.content.getD [], buildMetadata i metaCols r.cols⟩ :: rest.1, rest.2)

/-- Process all rows starting from index 0. -/
def processRows (rows : List RowData) (metaCols : List String) : List Doc × Nat :=
  processRowsFrom metaCols 0 rows

/-- Splitting one document: each text fragment becomes a document
carrying a copy of the parent's metadata. -/
def chunkDoc (seps : List Char) (maxSize overlap : Nat) (d : Doc) : List Doc :=
  (splitText seps maxSize overlap d.content).map (fun f => ⟨f, d.metadata⟩)

/-- `text_splitter.split_documents(documents)` (vector_builder.py line
90): the concatenation of every document's fragments, in document
order. -/
def splitDocuments (seps : List Char) (maxSize overlap : Nat) (docs : List Doc) : List Doc :=
  docs.flatMap (chunkDoc seps maxSize overlap)

/-- The id list of vector_builder.py line 94:
`ids = [f"doc_{i}" for i in range(len(split_docs))]`. -/
def makeIds (n : Nat) : List String :=
  (List.range n).map (fun i => "doc_" ++ Nat.repr i)

/-- A vector-store entry: text, metadata and the embedding vector
(embedding type kept abstract). -/
structure Entry (E : Type) where
  text : Frag
  metadata : List (String × MetaValue)
  embedding : E
deriving DecidableEq

/-- The build summary printed by vector_builder.py lines 110-119. -/
structure Report where
  rowsProcessed : Nat
  chunksCreated : Nat
  rowsSkipped : Nat
deriving DecidableEq

/-- Insert-or-replace one keyed entry (the vector store's upsert
semantics for an explicit id). -/
def upsertOne (s : List (String × β)) (k : String) (v : β) : List (String × β) :=
  if (lookupKey k s).isSome then s.map (fun p => if p.1 = k then (k, v) else p)
  else s ++ [(k, v)]

/-- Upsert a batch of keyed entries, left to right. -/
def upsertAll (s : List (String × β)) : List (String × β) → List (String × β)
  | [] => s
  | (k, v) :: rest => upsertAll (upsertOne s k v) rest

/-- The last value paired with `k` in a batch, if any. -/
def lastVal (k : String) (items : List (String × β)) : Option β :=
  items.foldl (fun acc p => if p.1 = k then some p.2 else acc) none

/-- Map a fallible function over a list, aborting at the first error:
the behaviour of the single batch embedding call inside
`Chroma.from_documents` (vector_builder.py lines 100-106), where any
exception propagates and aborts the build. -/
def mapExcept (f : α → Except ε β) : List α → Except ε (List β)
  | [] => .ok []
  | x :: xs =>
    match f x with
    | .error e => .error e
    | .ok b => (mapExcept f xs).map (fun bs => b :: bs)

/-- Embedding one split document into a store entry; an error of the
embedding collaborator propagates. -/
def embedDoc {E : Type} (embed : Frag → Except String E) (d : Doc) : Except String (Entry E) :=
  (embed d.content).map (fun e => Entry.mk d.content d.metadata e)

/-- The whole ingestion build (vector_builder.py `build_vector_db`):
process rows, split the accepted documents, assign the global ids of
line 94, embed every fragment (aborting on the first embedding error)
and upsert the id-keyed entries into the store. -/
def buildVectorDb {E : Type} (embed : Frag → Except String E) (rows : List RowData)
    (metaCols : List String) (seps : List Char) (maxSize overlap : Nat)
    (store : List (String × Entry E)) : Except String (List (String × Entry E) × Report) :=
  let pr := processRows rows metaCols
  let split_docs := splitDocuments seps maxSize overlap pr.1
  let ids := makeIds split_docs.length
  match mapExcept (embedDoc embed) split_docs with
  | .error e => .error e
  | .ok entries => .ok (upsertAll store (ids.zip entries), ⟨pr.1.length, split_docs.length, pr.2⟩)

/-- All fragments of a list of document texts, in document order
(vector_builder.py line 90 restricted to the text component). -/
def allFragments (seps : List Char) (maxSize overlap : Nat) (contents : List Frag) : List Frag :=
  contents.flatMap (splitText seps maxSize overlap)

/-- The number of fragments produced by the documents before document
`d`, i.e. the global index of document `d`'s first fragment. -/
def docOffset (seps : List Char) (maxSize overlap : Nat) (contents : List Frag) (d : Nat) : Nat :=
  (((contents.take d).map (fun c => (splitText seps maxSize overlap c).length))).sum

/-- The id-to-fragment assignment of vector_builder.py lines 90-94:
global ids `doc_i` zipped against the flattened fragment list. -/
def fragmentAssignment (seps : List Char) (maxSize overlap : Nat)
    (contents : List Frag) : List (String × Frag) :=
  (makeIds (allFragments seps maxSize overlap contents).length).zip
    (allFragments seps maxSize overlap contents)

/-! Data model of rag_api.py. -/

/-- A conversation message (rag_api.py `Message`). -/
structure Message where
  role : String
  content : String
deriving DecidableEq

/-- The role rendering of rag_api.py line 154. -/
def roleLabel (r : String) : String :=
  if r = "user" then "User" else "Assistant"

/-- One rendered history line (rag_api.py line 155). -/
def renderTurn (m : Message) : String :=
  roleLabel m.role ++ ": " ++ m.content ++ "\n"

/-- The history window of rag_api.py line 150:
`history[-6:] if len(history) > 6 else history`. -/
def recentWindow (h : List Message) : List Message :=
  if 6 < h.length then h.drop (h.length - 6) else h

/-- The assembled conversation-history block (rag_api.py lines
148-157): empty for an empty history, otherwise a header, one line per
recent message, and a trailing newline. -/
def historyBlock (h : List Message) : String :=
  if h.isEmpty then ""
  else "Previous conversation:\n" ++ String.join ((recentWindow h).map renderTurn) ++ "\n"

/-- Python `enumerate(xs, i)`. -/
def enumerateFrom (i : Nat) : List α → List (Nat × α)
  | [] => []
  | x :: xs => (i, x) :: enumerateFrom (i + 1) xs

/-- The per-document context block of rag_api.py lines 143-145. -/
def fragBlock (i : Nat) (text : String) : String :=
  "\n--- Document " ++ Nat.repr i ++ " ---\n" ++ text ++ "\n"

/-- The context-formatting loop of rag_api.py lines 141-145: starting
from the empty string, append one positional block per retrieved
document, enumerated from 1. -/
def formatContext (docs : List String) : String :=
  (enumerateFrom 1 docs).foldl (fun acc p => acc ++ fragBlock p.1 p.2) ""

/-- The payload passed to the generation chain (rag_api.py lines
165-169 and 190-194). -/
structure GenRequest where
  context : String
  conversationHistory : String
  question : String

/-- Assembling the generation request from question, retrieved
documents and history. -/
def assembleRequest (question : String) (docs : List String) (history : List Message) :
    GenRequest :=
  ⟨formatContext docs, historyBlock history, question⟩

/-- A client-visible stream event: a content token, the terminal
success marker, or a terminal error description (rag_api.py lines
170-178). -/
inductive StreamEvent where
  | content (token : String)
  | done
  | errorEvent (message : String)
deriving DecidableEq

/-- The streaming generator of rag_api.py lines 163-178.  The producer
is modelled as the list of tokens it yields before its outcome,
together with `none` for normal exhaustion or `some e` for an
exception raised with description `e` after those tokens: each token
is forwarded as a content event, exhaustion yields the single success
marker, and an exception yields the single error event, after which
the generator returns without requesting anything further. -/
def streamEvents : List String → Option String → List StreamEvent
  | [], none => [StreamEvent.done]
  | [], some e => [StreamEvent.errorEvent e]
  | t :: ts, f => StreamEvent.content t :: streamEvents ts f

/-- Left-biased choice on options, used to describe batch upserts. -/
def orO (a b : Option β) : Option β :=
  match a with
  | some v => some v
  | none => b

/-! Lemmas about the chunker. -/

theorem splitOnChar_shape (s : Char) :
    ∀ l : List Char, ∃ p ps, splitOnChar s l = p :: ps ∧ (∃ b, p ++ b = l) ∧
      (∀ q ∈ ps, ∃ a b, a ++ q ++ b = l)
  | [] => ⟨[], [], rfl, ⟨[], rfl⟩, by simp⟩
  | c :: cs => by
    obtain ⟨p, ps, heq, ⟨b, hb⟩, hmem⟩ := splitOnChar_shape s cs
    by_cases hc : c = s
    · refine ⟨[], p :: ps, ?_, ⟨c :: cs, rfl⟩, ?_⟩
      · simp [splitOnChar, hc, heq]
      · intro q hq
        rcases List.mem_cons.mp hq with rfl | hq
        · exact ⟨[c], b, by simp [hb]⟩
        · obtain ⟨a, b', hab⟩ := hmem q hq
          exact ⟨c :: a, b', by simp [hab]⟩
    · refine ⟨c :: p, ps, ?_, ⟨b, by simp [hb]⟩, ?_⟩
      · simp [splitOnChar, hc, heq]
      · intro q hq
        obtain ⟨a, b', hab⟩ := hmem q hq
        exact ⟨c :: a, b', by simp [hab]⟩

theorem splitOnChar_infix {s : Char} {l q : List Char} (hq : q ∈ splitOnChar s l) :
    ∃ a b, a ++ q ++ b = l := by
  obtain ⟨p, ps, heq, ⟨b, hb⟩, hmem⟩ := splitOnChar_shape s l
  rw [heq] at hq
  rcases List.mem_cons.mp hq with rfl | hq
  · exact ⟨[], b, by simp [hb]⟩
  · exact hmem q hq

theorem splitOnChar_not_mem (s : Char) :
    ∀ l : List Char, ∀ q ∈ splitOnChar s l, s ∉ q
  | [], q, hq => by
    simp [splitOnChar] at hq
    simp [hq]
  | c :: cs, q, hq => by
    by_cases hc : c = s
    · simp only [splitOnChar, if_pos hc] at hq
      rcases List.mem_cons.mp hq with rfl | hq
      · simp
      · exact splitOnChar_not_mem s cs q hq
    · rcases h : splitOnChar s cs with _ | ⟨p, ps⟩
      · simp only [splitOnChar, if_neg hc, h] at hq
        rcases List.mem_cons.mp hq with rfl | hq
        · simp
          exact fun hsc => hc hsc.symm
        · simp at hq
      · simp only [splitOnChar, if_neg hc, h] at hq
        rcases List.mem_cons.mp hq with rfl | hq
        · intro hmem
          rcases List.mem_cons.mp hmem with hsc | hmem
          · exact hc hsc.symm
          · exact splitOnChar_not_mem s cs p (by rw [h]; exact List.mem_cons_self _ _) hmem
        · exact splitOnChar_not_mem s cs q (by rw [h]; exact List.mem_cons_of_mem _ hq)

theorem recSplit_piece_bound (maxSize : Nat) :
    ∀ (seps : List Char) (text f : Frag), f ∈ recSplit maxSize seps text →
      f.length ≤ maxSize ∨ ((∀ s ∈ seps, s ∉ f) ∧ ∃ a b, a ++ f ++ b = text)
  | [], text, f, hf => by
    simp [recSplit] at hf
    subst hf
    exact Or.inr ⟨by simp, [], [], by simp⟩
  | s :: rest, text, f, hf => by
    simp only [recSplit] at hf
    by_cases hlen : text.length ≤ maxSize
    · rw [if_pos hlen] at hf
      simp at hf
      subst hf
      exact Or.inl hlen
    · rw [if_neg hlen] at hf
      by_cases hs : s ∈ text
      · rw [if_pos hs] at hf
        obtain ⟨q, hq, hfq⟩ := List.mem_flatMap.mp hf
        have hq' : q ∈ splitOnChar s text := List.mem_of_mem_filter hq
        rcases recSplit_piece_bound maxSize rest q f hfq with hle | ⟨hns, a, b, hab⟩
        · exact Or.inl hle
        · obtain ⟨a', b', hab'⟩ := splitOnChar_infix hq'
          refine Or.inr ⟨?_, a' ++ a, b ++ b', ?_⟩
          · intro s' hs'
            rcases List.mem_cons.mp hs' with rfl | hs'
            · intro hmem
              exact splitOnChar_not_mem s' text q hq' (hab ▸ (by simp [hmem]))
            · exact hns s' hs'
          · rw [← hab', ← hab]
            simp [List.append_assoc]
      · rw [if_neg hs] at hf
        rcases recSplit_piece_bound maxSize rest text f hf with hle | ⟨hns, a, b, hab⟩
        · exact Or.inl hle
        · refine Or.inr ⟨?_, a, b, hab⟩
          intro s' hs'
          rcases List.mem_cons.mp hs' with rfl | hs'
          · intro hmem
            exact hs (hab ▸ (by simp [hmem]))
          · exact hns s' hs'

theorem takeRightL_length_le (n : Nat) (l : List α) : (takeRightL n l).length ≤ n := by
  simp [takeRightL]
  omega

theorem takeRightL_length_of_le {n : Nat} {l : List α} (h : n ≤ l.length) :
    (takeRightL n l).length = n := by
  simp [takeRightL]
  omega

theorem take_append_self {l : List α} (x : List α) {n : Nat} (h : l.length = n) :
    (l ++ x).take n = l := by
  subst h
  exact List.take_left l x

theorem mergeGo_bound (maxSize overlap : Nat) :
    ∀ (ps : List Frag) (cur : Frag), cur.length ≤ maxSize →
      ∀ f ∈ mergeGo maxSize overlap cur ps, f.length ≤ maxSize ∨ f ∈ ps
  | [], cur, hcur, f, hf => by
    by_cases h : cur = [] <;> simp [mergeGo, h] at hf
    subst hf
    exact Or.inl hcur
  | p :: ps, cur, hcur, f, hf => by
    simp only [mergeGo] at hf
    by_cases h1 : maxSize < p.length
    · rw [if_pos h1] at hf
      rcases List.mem_append.mp hf with hl | hr
      · by_cases hc : cur = []
        · rw [if_pos hc] at hl
          simp at hl
        · rw [if_neg hc] at hl
          simp at hl
          subst hl
          exact Or.inl hcur
      · rcases List.mem_cons.mp hr with rfl | hr
        · exact Or.inr (List.mem_cons_self _ _)
        · rcases mergeGo_bound maxSize overlap ps [] (Nat.zero_le _) f hr with h | h
          · exact Or.inl h
          · exact Or.inr (List.mem_cons_of_mem _ h)
    · rw [if_neg h1] at hf
      by_cases hc : cur = []
      · rw [if_pos hc] at hf
        rcases mergeGo_bound maxSize overlap ps p (Nat.le_of_not_lt h1) f hf with h | h
        · exact Or.inl h
        · exact Or.inr (List.mem_cons_of_mem _ h)
      · rw [if_neg hc] at hf
        by_cases h3 : cur.length + p.length ≤ maxSize
        · rw [if_pos h3] at hf
          rcases mergeGo_bound maxSize overlap ps (cur ++ p) (by simp; omega) f hf with h | h
          · exact Or.inl h
          · exact Or.inr (List.mem_cons_of_mem _ h)
        · rw [if_neg h3] at hf
          rcases List.mem_cons.mp hf with rfl | hf
          · exact Or.inl hcur
          · have hcur' : (if (takeRightL overlap cur).length + p.length ≤ maxSize
                then takeRightL overlap cur ++ p else p).length ≤ maxSize := by
              by_cases hseed : (takeRightL overlap cur).length + p.length ≤ maxSize
              · rw [if_pos hseed]
                simp
                omega
              · rw [if_neg hseed]
                exact Nat.le_of_not_lt h1
            rcases mergeGo_bound maxSize overlap ps _ hcur' f hf with h | h
            · exact Or.inl h
            · exact Or.inr (List.mem_cons_of_mem _ h)

theorem mergeGo_head (maxSize overlap : Nat) :
    ∀ (ps : List Frag) (cur : Frag), cur ≠ [] →
      ∃ t tl, mergeGo maxSize overlap cur ps = (cur ++ t) :: tl
  | [], cur, hc => ⟨[], [], by simp [mergeGo, hc]⟩
  | p :: ps, cur, hc => by
    simp only [mergeGo]
    by_cases h1 : maxSize < p.length
    · rw [if_pos h1, if_neg hc]
      exact ⟨[], p :: mergeGo maxSize overlap [] ps, by simp⟩
    · rw [if_neg h1, if_neg hc]
      by_cases h3 : cur.length + p.length ≤ maxSize
      · rw [if_pos h3]
        obtain ⟨t, tl, ht⟩ := mergeGo_head maxSize overlap ps (cur ++ p) (by simp [hc])
        exact ⟨p ++ t, tl, by rw [ht]; simp⟩
      · rw [if_neg h3]
        exact ⟨[], mergeGo maxSize overlap
          (if (takeRightL overlap cur).length + p.length ≤ maxSize
            then takeRightL overlap cur ++ p else p) ps, by simp⟩

theorem mergeGo_chain (maxSize overlap : Nat) :
    ∀ (ps : List Frag) (cur : Frag),
      List.Chain' (fun f g => f.length ≤ maxSize → overlap ≤ f.length →
          g.length + overlap ≤ maxSize → g.take overlap = takeRightL overlap f)
        (mergeGo maxSize overlap cur ps)
  | [], cur => by
    by_cases hc : cur = [] <;> simp [mergeGo, hc]
  | p :: ps, cur => by
    simp only [mergeGo]
    by_cases h1 : maxSize < p.length
    · rw [if_pos h1]
      have htail : List.Chain' (fun f g => f.length ≤ maxSize → overlap ≤ f.length →
          g.length + overlap ≤ maxSize → g.take overlap = takeRightL overlap f)
          (p :: mergeGo maxSize overlap [] ps) := by
        rw [List.chain'_cons']
        refine ⟨?_, mergeGo_chain maxSize overlap ps []⟩
        intro y _ hp _ _
        exact absurd hp (by omega)
      by_cases hc : cur = []
      · rw [if_pos hc]
        simpa using htail
      · rw [if_neg hc]
        simp only [List.singleton_append]
        rw [List.chain'_cons']
        refine ⟨?_, htail⟩
        intro y hy _ _ hylen
        simp at hy
        subst hy
        exact absurd hylen (by omega)
    · rw [if_neg h1]
      by_cases hc : cur = []
      · rw [if_pos hc]
        exact mergeGo_chain maxSize overlap ps p
      · rw [if_neg hc]
        by_cases h3 : cur.length + p.length ≤ maxSize
        · rw [if_pos h3]
          exact mergeGo_chain maxSize overlap ps (cur ++ p)
        · rw [if_neg h3]
          rw [List.chain'_cons']
          refine ⟨?_, mergeGo_chain maxSize overlap ps _⟩
          intro y hy hcb hco hyb
          have hseedlen : (takeRightL overlap cur).length = overlap :=
            takeRightL_length_of_le hco
          by_cases hseed : (takeRightL overlap cur).length + p.length ≤ maxSize
          · rw [if_pos hseed] at hy
            by_cases hc' : takeRightL overlap cur ++ p = []
            · obtain ⟨hs0, hp0⟩ := List.append_eq_nil.mp hc'
              have hov : overlap = 0 := by
                rw [hs0] at hseedlen
                simpa using hseedlen.symm
              subst hov
              simp [takeRightL, List.drop_length]
            · obtain ⟨t, tl, ht⟩ := mergeGo_head maxSize overlap ps _ hc'
              rw [ht] at hy
              simp at hy
              subst hy
              exact take_append_self _ hseedlen
          · rw [if_neg hseed] at hy
            by_cases hp : p = []
            · subst hp
              simp at hseed
              exact absurd hyb (by omega)
            · obtain ⟨t, tl, ht⟩ := mergeGo_head maxSize overlap ps p hp
              rw [ht] at hy
              simp at hy
              subst hy
              simp at hyb
              exact absurd hyb (by omega)

/-- C6: every fragment produced by splitting is within the configured
maximum size, except that a piece in which no separator occurs is
emitted unmodified (it occurs verbatim in the input) even when it is
oversized; nothing is truncated or dropped. -/
theorem c6_chunk_bound (seps : List Char) (maxSize overlap : Nat) (text : Frag)
    (f : Frag) (hf : f ∈ splitText seps maxSize overlap text) :
    f.length ≤ maxSize ∨ ((∀ s ∈ seps, s ∉ f) ∧ ∃ a b, a ++ f ++ b = text) := by
  unfold splitText at hf
  by_cases hws : text.all (fun c => c.isWhitespace)
  · rw [if_pos hws] at hf
    simp at hf
  · rw [if_neg hws] at hf
    rcases mergeGo_bound maxSize overlap (recSplit maxSize seps text) [] (Nat.zero_le _) f hf
      with h | h
    · exact Or.inl h
    · exact recSplit_piece_bound maxSize seps text f h

/-- Witness for C6 at the oversized atomic unit "aaaaaa" with
maximum size 5. -/
theorem c6_chunk_bound_witness :
    ("aaaaaa".toList).length ≤ 5 ∨
      ((∀ s ∈ [' '], s ∉ "aaaaaa".toList) ∧
        ∃ a b, a ++ "aaaaaa".toList ++ b = "aaaaaa".toList) :=
  c6_chunk_bound [' '] 5 0 ("aaaaaa".toList) ("aaaaaa".toList) (by decide)

/-- C5 counterexample: with separators newline-then-space, maximum
size 10 and overlap 3, the input splits into the two fragments
"aa bb" and "cccccccccccc", both longer than the overlap, yet the
3-character suffix of the first differs from the 3-character prefix of
the second — the oversized atomic unit is emitted as-is, without the
overlap seed the claim requires. -/
theorem c5_overlap_cex :
    splitText ['\n', ' '] 10 3 ("aa bb\ncccccccccccc".toList) =
      [("aa bb".toList), ("cccccccccccc".toList)] ∧
    3 < ("aa bb".toList).length ∧ 3 < ("cccccccccccc".toList).length ∧
    ("cccccccccccc".toList).take 3 ≠ takeRightL 3 ("aa bb".toList) :=
  ⟨by decide, by decide, by decide, by decide⟩

/-- C5 amended: consecutive fragments overlap by exactly the
configured overlap length whenever the earlier fragment is within the
size bound and at least overlap long and the later fragment's length
plus the overlap fits within the maximum size (the conditions under
which the later fragment was seeded from the earlier one); around
oversized atomic units emitted as-is, and where the overlap seed plus
the following piece would exceed the maximum size, no overlap is
guaranteed. -/
theorem c5_overlap_seeded (seps : List Char) (maxSize overlap : Nat) (text : Frag)
    (i : Nat) (f g : Frag)
    (hf : (splitText seps maxSize overlap text).get? i = some f)
    (hg : (splitText seps maxSize overlap text).get? (i + 1) = some g)
    (hfb : f.length ≤ maxSize) (hfo : overlap ≤ f.length)
    (hgb : g.length + overlap ≤ maxSize) :
    g.take overlap = takeRightL overlap f := by
  unfold splitText at hf hg
  by_cases hws : text.all (fun c => c.isWhitespace)
  · rw [if_pos hws] at hf
    simp at hf
  · rw [if_neg hws] at hf hg
    have hch := mergeGo_chain maxSize overlap (recSplit maxSize seps text) []
    rw [List.chain'_iff_get] at hch
    obtain ⟨hi, hfe⟩ := List.get?_eq_some.mp hf
    obtain ⟨hj, hge⟩ := List.get?_eq_some.mp hg
    have h := hch i (by omega)
    rw [hfe, hge] at h
    exact h hfb hfo hgb

/-- Witness for C5 amended: splitting "aaa bbb ccc ddd" with maximum
size 10 and overlap 3 gives fragments "aaabbbccc" and "cccddd", whose
overlap is exactly "ccc". -/
theorem c5_overlap_seeded_witness :
    ("cccddd".toList).take 3 = takeRightL 3 ("aaabbbccc".toList) :=
  c5_overlap_seeded [' '] 10 3 ("aaa bbb ccc ddd".toList) 0
    ("aaabbbccc".toList) ("cccddd".toList) (by decide) (by decide) (by decide)
    (by decide) (by decide)

/-- C1: for every producer run, the coordinator emits one content
event per produced token, in order; a normally exhausted producer is
followed by exactly one terminal success marker, and a producer that
fails after its tokens is followed by exactly one terminal error event
carrying the error description, with nothing emitted afterwards. -/
theorem c1_streaming_events (ts : List String) (e : String) :
    streamEvents ts none = ts.map StreamEvent.content ++ [StreamEvent.done] ∧
    streamEvents ts (some e) = ts.map StreamEvent.content ++ [StreamEvent.errorEvent e] := by
  constructor
  · induction ts with
    | nil => rfl
    | cons t ts ih => simp [streamEvents, ih]
  · induction ts with
    | nil => rfl
    | cons t ts ih => simp [streamEvents, ih]

/-- C2: the history window is exactly the last six turns of the
supplied history in original order (the drop formula also shows that a
10-turn history keeps exactly the last 6), it never exceeds six turns,
and an empty history yields the empty history block. -/
theorem c2_history_window (h : List Message) :
    recentWindow h = h.drop (h.length - 6) ∧ (recentWindow h).length ≤ 6 ∧
      historyBlock [] = "" := by
  refine ⟨?_, ?_, rfl⟩
  · unfold recentWindow
    by_cases h6 : 6 < h.length
    · rw [if_pos h6]
    · rw [if_neg h6]
      have h0 : h.length - 6 = 0 := by omega
      rw [h0, List.drop_zero]
  · unfold recentWindow
    by_cases h6 : 6 < h.length
    · rw [if_pos h6]
      simp
      omega
    · rw [if_neg h6]
      omega

/-- C8: the assembled context is the concatenation, in retrieval
order, of one block per retrieved document, each carrying its 1-based
positional marker; zero retrieved documents give the empty context. -/
theorem c8_context_format (docs : List String) :
    formatContext docs =
      String.join ((enumerateFrom 1 docs).map (fun p => fragBlock p.1 p.2)) ∧
    formatContext [] = "" := by
  refine ⟨?_, rfl⟩
  simp only [String.join, List.foldl_map]
  rfl

/-- C10: the rendered role label is "User" exactly when the message
role equals "user", and every other role string is rendered as
"Assistant". -/
theorem c10_role_label (r : String) :
    (roleLabel r = "User" ↔ r = "user") ∧ (r ≠ "user" → roleLabel r = "Assistant") := by
  unfold roleLabel
  by_cases hr : r = "user"
  · subst hr
    exact ⟨by simp, fun hne => absurd rfl hne⟩
  · rw [if_neg hr]
    exact ⟨⟨fun hau => absurd hau (by decide), fun hru => absurd hru hr⟩, fun _ => rfl⟩

/-- Witness for C10 at the unrecognized role "system" and at "user". -/
theorem c10_role_label_witness : roleLabel "system" = "Assistant" :=
  (c10_role_label "system").2 (by decide)

/-! Lemmas about the keyed store. -/

theorem lookupKey_map_replace_self (k : String) (v : β) :
    ∀ s : List (String × β), (lookupKey k s).isSome →
      lookupKey k (s.map (fun p => if p.1 = k then (k, v) else p)) = some v
  | [], hs => by simp [lookupKey] at hs
  | (a, w) :: tl, hs => by
    simp only [lookupKey] at hs
    simp only [List.map_cons]
    by_cases ha : a = k
    · rw [if_pos ha]
      simp [lookupKey]
    · rw [if_neg ha]
      rw [if_neg ha] at hs
      simp only [lookupKey]
      rw [if_neg ha]
      exact lookupKey_map_replace_self k v tl hs

theorem lookupKey_map_replace_other (k k' : String) (v : β) (hk : k' ≠ k) :
    ∀ s : List (String × β),
      lookupKey k' (s.map (fun p => if p.1 = k then (k, v) else p)) = lookupKey k' s
  | [] => rfl
  | (a, w) :: tl => by
    simp only [List.map_cons]
    by_cases ha : a = k
    · rw [if_pos ha]
      simp only [lookupKey]
      rw [if_neg (fun h => hk h.symm), if_neg (fun h => hk (h.symm.trans ha))]
      exact lookupKey_map_replace_other k k' v hk tl
    · rw [if_neg ha]
      simp only [lookupKey]
      by_cases ha' : a = k'
      · rw [if_pos ha', if_pos ha']
      · rw [if_neg ha', if_neg ha']
        exact lookupKey_map_replace_other k k' v hk tl

theorem lookupKey_append_single (k k' : String) (v : β) :
    ∀ s : List (String × β),
      lookupKey k' (s ++ [(k, v)]) = orO (lookupKey k' s) (if k = k' then some v else none)
  | [] => by simp [lookupKey, orO]
  | (a, w) :: tl => by
    simp only [List.cons_append, lookupKey]
    by_cases ha : a = k'
    · rw [if_pos ha, if_pos ha]
      simp [orO]
    · rw [if_neg ha, if_neg ha]
      exact lookupKey_append_single k k' v tl

theorem lookupKey_upsertOne (s : List (String × β)) (k k' : String) (v : β) :
    lookupKey k' (upsertOne s k v) = if k' = k then some v else lookupKey k' s := by
  unfold upsertOne
  by_cases hs : (lookupKey k s).isSome
  · rw [if_pos hs]
    by_cases hk : k' = k
    · subst hk
      rw [if_pos rfl]
      exact lookupKey_map_replace_self k' v s hs
    · rw [if_neg hk]
      exact lookupKey_map_replace_other k k' v hk s
  · rw [if_neg hs, lookupKey_append_single]
    have hnone : lookupKey k s = none := Option.not_isSome_iff_eq_none.mp hs
    by_cases hk : k' = k
    · subst hk
      rw [hnone, if_pos rfl]
      simp [orO]
    · rw [if_neg hk, if_neg (fun h => hk h.symm)]
      cases h : lookupKey k' s <;> simp [orO]

theorem foldl_lastVal (k : String) :
    ∀ (items : List (String × β)) (init : Option β),
      items.foldl (fun acc p => if p.1 = k then some p.2 else acc) init =
        orO (lastVal k items) init
  | [], init => by simp [lastVal, orO]
  | (a, w) :: rest, init => by
    simp only [lastVal, List.foldl_cons]
    rw [foldl_lastVal k rest, foldl_lastVal k rest]
    cases hlv : lastVal k rest <;> by_cases ha : a = k <;> simp [orO, ha]

theorem lastVal_cons (k a : String) (w : β) (rest : List (String × β)) :
    lastVal k ((a, w) :: rest) = orO (lastVal k rest) (if a = k then some w else none) := by
  simp only [lastVal, List.foldl_cons]
  rw [foldl_lastVal k rest]
  rfl

theorem lookupKey_upsertAll (k : String) :
    ∀ (items s : List (String × β)),
      lookupKey k (upsertAll s items) = orO (lastVal k items) (lookupKey k s)
  | [], s => by simp [upsertAll, lastVal, orO]
  | (k', v') :: rest, s => by
    show lookupKey k (upsertAll (upsertOne s k' v') rest) = _
    rw [lookupKey_upsertAll k rest, lookupKey_upsertOne, lastVal_cons]
    cases hlv : lastVal k rest
    · by_cases hk : k = k'
      · rw [if_pos hk, if_pos hk.symm]
        simp [orO]
      · rw [if_neg hk, if_neg (fun h => hk h.symm)]
        simp [orO]
    · simp [orO]

theorem lastVal_isSome_of_mem (k : String) (v : β) :
    ∀ items : List (String × β), (k, v) ∈ items → (lastVal k items).isSome
  | (a, w) :: rest, hmem => by
    rw [lastVal_cons]
    rcases List.mem_cons.mp hmem with heq | hmem
    · injection heq with h1 h2
      subst h1
      rw [if_pos rfl]
      cases hlv : lastVal k rest <;> simp [orO]
    · have hrec := lastVal_isSome_of_mem k v rest hmem
      cases hlv : lastVal k rest
      · rw [hlv] at hrec
        simp at hrec
      · simp [orO]

theorem length_upsertOne_of_isSome {s : List (String × β)} {k : String} (v : β)
    (hs : (lookupKey k s).isSome) : (upsertOne s k v).length = s.length := by
  unfold upsertOne
  rw [if_pos hs]
  simp

theorem isSome_lookupKey_upsertOne {s : List (String × β)} {k k' : String} (v : β)
    (h : (lookupKey k' s).isSome) : (lookupKey k' (upsertOne s k v)).isSome := by
  rw [lookupKey_upsertOne]
  by_cases hk : k' = k <;> simp [hk, h]

theorem length_upsertAll :
    ∀ (items s : List (String × β)), (∀ p ∈ items, (lookupKey p.1 s).isSome) →
      (upsertAll s items).length = s.length
  | [], _, _ => rfl
  | (k', v') :: rest, s, h => by
    show (upsertAll (upsertOne s k' v') rest).length = s.length
    rw [length_upsertAll rest _ fun p hp =>
        isSome_lookupKey_upsertOne v' (h p (List.mem_cons_of_mem _ hp)),
      length_upsertOne_of_isSome v' (h (k', v') (List.mem_cons_self _ _))]

theorem buildVectorDb_eq {E : Type} (embed : Frag → Except String E) (rows : List RowData)
    (metaCols : List String) (seps : List Char) (maxSize overlap : Nat)
    (store : List (String × Entry E)) :
    buildVectorDb embed rows metaCols seps maxSize overlap store =
      match mapExcept (embedDoc embed)
          (splitDocuments seps maxSize overlap (processRows rows metaCols).1) with
      | .error e => .error e
      | .ok entries =>
        .ok (upsertAll store
            ((makeIds (splitDocuments seps maxSize overlap
              (processRows rows metaCols).1).length).zip entries),
          ⟨(processRows rows metaCols).1.length,
            (splitDocuments seps maxSize overlap (processRows rows metaCols).1).length,
            (processRows rows metaCols).2⟩) := rfl

/-- C7: rebuilding on the identical input over the index produced by a
first build yields a pointwise-identical id-to-entry mapping, the same
number of stored entries (no duplication), and the same report. -/
theorem c7_idempotent_build {E : Type} (embed : Frag → Except String E) (rows : List RowData)
    (metaCols : List String) (seps : List Char) (maxSize overlap : Nat)
    (I1 I2 : List (String × Entry E)) (r1 r2 : Report)
    (h1 : buildVectorDb embed rows metaCols seps maxSize overlap [] = .ok (I1, r1))
    (h2 : buildVectorDb embed rows metaCols seps maxSize overlap I1 = .ok (I2, r2)) :
    (∀ k, lookupKey k I2 = lookupKey k I1) ∧ I2.length = I1.length ∧ r2 = r1 := by
  rw [buildVectorDb_eq] at h1 h2
  cases hm : mapExcept (embedDoc embed)
      (splitDocuments seps maxSize overlap (processRows rows metaCols).1) with
  | error e =>
    rw [hm] at h1
    simp at h1
  | ok entries =>
    rw [hm] at h1 h2
    simp only [Except.ok.injEq, Prod.mk.injEq] at h1 h2
    obtain ⟨h1i, h1r⟩ := h1
    obtain ⟨h2i, h2r⟩ := h2
    subst h1i
    subst h1r
    subst h2i
    subst h2r
    refine ⟨?_, ?_, rfl⟩
    · intro k
      rw [lookupKey_upsertAll, lookupKey_upsertAll]
      cases hlv : lastVal k ((makeIds (splitDocuments seps maxSize overlap
          (processRows rows metaCols).1).length).zip entries) <;> simp [orO, lookupKey]
    · apply length_upsertAll
      intro p hp
      rw [lookupKey_upsertAll]
      have hsome := lastVal_isSome_of_mem p.1 p.2 _ (by simpa using hp)
      cases hlv : lastVal p.1 ((makeIds (splitDocuments seps maxSize overlap
          (processRows rows metaCols).1).length).zip entries)
      · rw [hlv] at hsome
        simp at hsome
      · simp [orO]

/-- Witness for C7: a one-row build with a constant embedder, run
twice, keeps the single stored entry. -/
theorem c7_idempotent_build_witness :
    ([("doc_0", (⟨"abc".toList, [("row_id", MetaValue.intVal 0)], 0⟩ : Entry Nat))]).length =
      ([("doc_0", (⟨"abc".toList, [("row_id", MetaValue.intVal 0)], 0⟩ : Entry Nat))]).length :=
  (c7_idempotent_build (fun _ => Except.ok 0) [⟨some ("abc".toList), []⟩] [] [' '] 10 0
    [("doc_0", ⟨"abc".toList, [("row_id", MetaValue.intVal 0)], 0⟩)]
    [("doc_0", ⟨"abc".toList, [("row_id", MetaValue.intVal 0)], 0⟩)]
    ⟨1, 1, 0⟩ ⟨1, 1, 0⟩ (by rfl) (by rfl)).2.1

theorem mapExcept_error_iff (f : α → Except ε β) :
    ∀ l : List α, (∃ e, mapExcept f l = .error e) ↔ ∃ x ∈ l, ∃ e, f x = .error e
  | [] => by simp [mapExcept]
  | x :: xs => by
    constructor
    · rintro ⟨e, he⟩
      simp only [mapExcept] at he
      cases hfx : f x with
      | error e' => exact ⟨x, List.mem_cons_self _ _, e', hfx⟩
      | ok b =>
        rw [hfx] at he
        cases hxs : mapExcept f xs with
        | error e'' =>
          obtain ⟨y, hy, e3, hfy⟩ := (mapExcept_error_iff f xs).mp ⟨e'', hxs⟩
          exact ⟨y, List.mem_cons_of_mem _ hy, e3, hfy⟩
        | ok bs =>
          rw [hxs] at he
          simp [Except.map] at he
    · rintro ⟨y, hy, e, hfy⟩
      rcases List.mem_cons.mp hy with rfl | hy
      · exact ⟨e, by simp only [mapExcept]; rw [hfy]⟩
      · obtain ⟨e', he'⟩ := (mapExcept_error_iff f xs).mpr ⟨y, hy, e, hfy⟩
        cases hfx : f x with
        | error e'' => exact ⟨e'', by simp only [mapExcept]; rw [hfx]⟩
        | ok b => exact ⟨e', by simp only [mapExcept]; rw [hfx, he']; rfl⟩

theorem embedDoc_error_iff {E : Type} (embed : Frag → Except String E) (d : Doc) (e : String) :
    embedDoc embed d = .error e ↔ embed d.content = .error e := by
  unfold embedDoc
  cases h : embed d.content <;> simp [Except.map]

/-- C4 counterexample: with two valid rows and an embedding
collaborator that fails on the second row's fragment, the whole build
aborts with that error; the failing row is not caught, not counted as
skipped, and no report is produced. -/
theorem c4_embedding_error_cex :
    buildVectorDb
        (fun f => if f = "bbb".toList then Except.error "boom" else Except.ok (0 : Nat))
        [⟨some ("aaa".toList), []⟩, ⟨some ("bbb".toList), []⟩] [] [' '] 10 0 [] =
      Except.error "boom" := by rfl

/-- C4 amended: rows with missing or empty content are the only ones
skipped; an embedding-collaborator error is not caught per row — the
ingestion build fails exactly when the embedding of some produced
fragment fails, aborting the whole batch. -/
theorem c4_embedding_error_fatal {E : Type} (embed : Frag → Except String E)
    (rows : List RowData) (metaCols : List String) (seps : List Char)
    (maxSize overlap : Nat) (store : List (String × Entry E)) :
    (∃ e, buildVectorDb embed rows metaCols seps maxSize overlap store = .error e) ↔
      ∃ d ∈ splitDocuments seps maxSize overlap (processRows rows metaCols).1,
        ∃ e, embed d.content = .error e := by
  constructor
  · rintro ⟨e, he⟩
    rw [buildVectorDb_eq] at he
    cases hm : mapExcept (embedDoc embed)
        (splitDocuments seps maxSize overlap (processRows rows metaCols).1) with
    | error e' =>
      obtain ⟨d, hd, e'', hfd⟩ := (mapExcept_error_iff _ _).mp ⟨e', hm⟩
      exact ⟨d, hd, e'', (embedDoc_error_iff embed d e'').mp hfd⟩
    | ok entries =>
      rw [hm] at he
      simp at he
  · rintro ⟨d, hd, e, hed⟩
    obtain ⟨e', hm⟩ := (mapExcept_error_iff (embedDoc embed) _).mpr
      ⟨d, hd, e, (embedDoc_error_iff embed d e).mpr hed⟩
    exact ⟨e', by rw [buildVectorDb_eq, hm]⟩

/-! Lemmas about positions in flattened lists. -/

theorem flatMap_get_offset (g : α → List β) :
    ∀ (l : List α) (d : Nat) (c : α) (j : Nat) (f : β),
      l.get? d = some c → (g c).get? j = some f →
      (l.flatMap g).get? (((l.take d).map fun x => (g x).length).sum + j) = some f
  | [], d, c, j, f, hc, _ => by simp at hc
  | a :: l, 0, c, j, f, hc, hf => by
    simp only [List.get?_cons_zero, Option.some.injEq] at hc
    subst hc
    simp only [List.take_zero, List.map_nil, List.sum_nil, Nat.zero_add, List.flatMap_cons]
    have hj : j < (g a).length := by
      obtain ⟨h, _⟩ := List.get?_eq_some.mp hf
      exact h
    rw [List.get?_append hj]
    exact hf
  | a :: l, d + 1, c, j, f, hc, hf => by
    simp only [List.get?_cons_succ] at hc
    simp only [List.take_succ_cons, List.map_cons, List.sum_cons, List.flatMap_cons]
    rw [Nat.add_assoc, List.get?_append_right (Nat.le_add_right _ _)]
    have harith : (g a).length + (((l.take d).map fun x => (g x).length).sum + j)
        - (g a).length = ((l.take d).map fun x => (g x).length).sum + j := by omega
    rw [harith]
    exact flatMap_get_offset g l d c j f hc hf

theorem makeIds_get (n i : Nat) (h : i < n) :
    (makeIds n).get? i = some ("doc_" ++ Nat.repr i) := by
  unfold makeIds
  rw [List.get?_map, List.get?_range h]
  rfl

theorem zip_get_some :
    ∀ (l1 : List α) (l2 : List β) (i : Nat) (x : α) (y : β),
      l1.get? i = some x → l2.get? i = some y → (l1.zip l2).get? i = some (x, y)
  | [], _, i, x, y, h1, _ => by simp at h1
  | _ :: _, [], i, x, y, _, h2 => by simp at h2
  | a :: l1, b :: l2, 0, x, y, h1, h2 => by
    simp only [List.get?_cons_zero, Option.some.injEq] at h1 h2
    subst h1
    subst h2
    rfl
  | a :: l1, b :: l2, i + 1, x, y, h1, h2 => by
    simp only [List.get?_cons_succ] at h1 h2
    simp only [List.zip_cons_cons, List.get?_cons_succ]
    exact zip_get_some l1 l2 i x y h1 h2

/-- C3 counterexample: two ingestion runs whose second document is the
same "xyz" at the same position with the same single fragment, yet its
fragment receives id "doc_2" in the first run and "doc_1" in the
second, because the first document produced a different number of
fragments — the id is not a function of document id and ordinal
alone. -/
theorem c3_fragment_ids_cex :
    fragmentAssignment [' '] 5 0 ["aaaaaa bbbbbb".toList, "xyz".toList] =
      [("doc_0", "aaaaaa".toList), ("doc_1", "bbbbbb".toList), ("doc_2", "xyz".toList)] ∧
    fragmentAssignment [' '] 5 0 ["aaa".toList, "xyz".toList] =
      [("doc_0", "aaa".toList), ("doc_1", "xyz".toList)] ∧
    ("doc_2" : String) ≠ "doc_1" :=
  ⟨by decide, by decide, by decide⟩

/-- C3 amended: fragment j of document d receives the id
"doc_" followed by the fragment's global position, namely the total
number of fragments produced by the earlier documents plus j; the
scheme is deterministic and position-unique, but it depends on how
many fragments the earlier documents produced. -/
theorem c3_fragment_ids_global (seps : List Char) (maxSize overlap : Nat)
    (contents : List Frag) (d j : Nat) (c f : Frag)
    (hc : contents.get? d = some c)
    (hf : (splitText seps maxSize overlap c).get? j = some f) :
    (fragmentAssignment seps maxSize overlap contents).get?
        (docOffset seps maxSize overlap contents d + j) =
      some ("doc_" ++ Nat.repr (docOffset seps maxSize overlap contents d + j), f) := by
  have hall : (allFragments seps maxSize overlap contents).get?
      (docOffset seps maxSize overlap contents d + j) = some f :=
    flatMap_get_offset (splitText seps maxSize overlap) contents d c j f hc hf
  have hidx : docOffset seps maxSize overlap contents d + j <
      (allFragments seps maxSize overlap contents).length := by
    obtain ⟨h, _⟩ := List.get?_eq_some.mp hall
    exact h
  unfold fragmentAssignment
  exact zip_get_some _ _ _ _ _ (makeIds_get _ _ hidx) hall

/-- Witness for C3 amended on a one-document build. -/
theorem c3_fragment_ids_witness :
    (fragmentAssignment [' '] 5 0 ["aaa".toList]).get? 0 =
      some ("doc_" ++ Nat.repr 0, "aaa".toList) :=
  c3_fragment_ids_global [' '] 5 0 ["aaa".toList] 0 0 ("aaa".toList) ("aaa".toList)
    (by decide) (by decide)

/-- C9 counterexample: the metadata mapping of a document built from
row 0 with no metadata columns is the single pair mapping row_id to
the integer 0, so not every metadata value is a string. -/
theorem c9_metadata_cex :
    (buildMetadata 0 [] []).all (fun kv => isStringValue kv.2) = false := by rfl

/-- C9 amended: every metadata value apart from the pipeline-added
row_id entry (which holds the integer row index) is a string. -/
theorem c9_metadata_strings (i : Nat) (metaCols : List String)
    (cols : List (String × Option String)) (kv : String × MetaValue)
    (hkv : kv ∈ buildMetadata i metaCols cols) (hne : kv.1 ≠ "row_id") :
    isStringValue kv.2 = true := by
  unfold buildMetadata at hkv
  rcases List.mem_cons.mp hkv with heq | hmem
  · rw [heq] at hne
    simp at hne
  · obtain ⟨c, hc, hmap⟩ := List.mem_filterMap.mp hmem
    cases hv : colValue cols c with
    | none =>
      rw [hv] at hmap
      simp at hmap
    | some v =>
      rw [hv] at hmap
      simp at hmap
      rw [← hmap]
      rfl

/-- Witness for C9 amended at a one-column row. -/
theorem c9_metadata_witness : isStringValue (MetaValue.strVal "x") = true :=
  c9_metadata_strings 0 ["a"] [("a", some "x")] ("a", MetaValue.strVal "x")
    (by decide) (by decide)

end Rag
